import Mathlib

/-!
Verification of the `bigcompressor` Go package (`src/bigcompressor.go`)
against its natural-language specification.

The development shallowly embeds the package: byte streams are `List Nat`
(each element a byte value), the filesystem walk is an explicit entry list
(the data `filepath.Walk` hands to the callback), stateful I/O becomes
explicit state passing, and the external collaborators (`klauspost/zstd`,
`archive/tar` binary block layout) are modelled as an injective framing
codec, exactly as the spec scopes them ("treated as external collaborators
... consumed through their ordinary encode/decode stream interfaces").
Go stdlib behaviour that the package relies on (`bufio.Scanner`,
`bytes.TrimSpace`, `tar.Reader.Next` error caching, `os.OpenFile` without
`O_TRUNC`) is embedded from the documented stdlib semantics.
-/

namespace BigCompressor

/-- A byte, as a natural number value (the Go code uses `[]byte`). -/
abbrev Byte := Nat

/-- The separator literal `_cHuNK_` (`var chunkseparator = bytes.NewBufferString("_cHuNK_")`,
src/bigcompressor.go:16), as its byte values. -/
def chunkseparator : List Byte := [95, 99, 72, 117, 78, 75, 95]

/-- ASCII whitespace bytes: the characters trimmed by `bytes.TrimSpace`
when the boundary bytes are ASCII (tab, LF, VT, FF, CR, space). -/
def isSpaceByte (b : Byte) : Bool :=
  b == 9 || b == 10 || b == 11 || b == 12 || b == 13 || b == 32

/-- Model of `bytes.TrimSpace` on binary data: drop leading and trailing
ASCII whitespace bytes (src/bigcompressor.go:103,110).  (For arbitrary
binary input Go trims exactly the ASCII whitespace bytes at the edges
unless they happen to form valid multi-byte UTF-8 space encodings; the
ASCII behaviour is the relevant one for byte streams here.) -/
def trimSpace (l : List Byte) : List Byte :=
  ((l.dropWhile isSpaceByte).reverse.dropWhile isSpaceByte).reverse

/-- Model of `bytes.Index data pat`: index of the first occurrence of
`pat` as a contiguous sub-list of `data`, `none` when absent
(Go returns -1; src/bigcompressor.go:99). -/
def indexOfSub (pat : List Byte) : List Byte → Option Nat
  | [] => if pat = [] then some 0 else none
  | b :: rest =>
    if pat.isPrefixOf (b :: rest) then some 0
    else (indexOfSub pat rest).map (· + 1)

theorem isPrefixOf_iff_append {l₁ l₂ : List Byte} :
    l₁.isPrefixOf l₂ = true ↔ ∃ t, l₁ ++ t = l₂ := by
  induction l₁ generalizing l₂ with
  | nil => simp [List.isPrefixOf]
  | cons a l ih =>
    cases l₂ with
    | nil => simp [List.isPrefixOf]
    | cons b m =>
      simp only [List.isPrefixOf, Bool.and_eq_true, beq_iff_eq, ih, List.cons_append,
        List.cons.injEq]
      constructor
      · rintro ⟨rfl, t, rfl⟩
        exact ⟨t, rfl, rfl⟩
      · rintro ⟨t, rfl, rfl⟩
        exact ⟨rfl, t, rfl⟩

theorem indexOfSub_le_length {pat l : List Byte} {k : Nat}
    (h : indexOfSub pat l = some k) : k + pat.length ≤ l.length := by
  induction l generalizing k with
  | nil =>
    by_cases hp : pat = ([] : List Byte) <;>
      simp [indexOfSub, hp] at h
    simp [h.symm, hp]
  | cons b rest ih =>
    simp only [indexOfSub] at h
    split at h
    · rename_i hpre
      cases h
      obtain ⟨t, ht⟩ := isPrefixOf_iff_append.mp hpre
      have := congrArg List.length ht
      simp only [List.length_append, List.length_cons] at this ⊢
      omega
    · simp only [Option.map_eq_some'] at h
      obtain ⟨k', hk', rfl⟩ := h
      have := ih hk'
      simp only [List.length_cons]
      omega

theorem indexOfSub_none_of_all {pat l : List Byte} {c : Byte}
    (hpat : ∃ x ∈ pat, x ≠ c) (hall : ∀ b ∈ l, b = c) :
    indexOfSub pat l = none := by
  induction l with
  | nil =>
    obtain ⟨x, hx, hxc⟩ := hpat
    have : pat ≠ [] := by rintro rfl; simp at hx
    simp [indexOfSub, this]
  | cons b rest ih =>
    have hb : b = c := hall b (by simp)
    have hrest : ∀ y ∈ rest, y = c := fun y hy => hall y (by simp [hy])
    have hnp : pat.isPrefixOf (b :: rest) = false := by
      rw [Bool.eq_false_iff]
      intro hpre
      obtain ⟨x, hx, hxc⟩ := hpat
      have hmem : x ∈ b :: rest := by
        obtain ⟨t, ht⟩ := isPrefixOf_iff_append.mp hpre
        rw [← ht]
        exact List.mem_append_left t hx
      rcases List.mem_cons.mp hmem with h | h
      · exact hxc (h.trans hb)
      · exact hxc (hrest x h)
    simp [indexOfSub, hnp, ih hrest]

/-- One walked filesystem entry: the data `filepath.Walk` passes to the
callback in `createChunkInfo`, together with the file bytes the encoder
later reads from disk.  `size` is `fi.Size()` as reported by the OS
(directories report their real, generally nonzero, sizes); `mode` the
permission bits; `content` the bytes of the file at `file` (empty for
directories). -/
structure WalkFile where
  file : String
  size : Int
  isDir : Bool
  mode : Nat
  content : List Byte
deriving DecidableEq, Repr

/-- Model of the Go `dataChunk` struct (src/bigcompressor.go:28). -/
structure DataChunk where
  chunkNumber : Nat
  files : List WalkFile
  totalSize : Int
deriving DecidableEq, Repr

/-- Appending one entry to a chunk: the entry is appended to `files`, and
its size is added to `totalSize` only when it is not a directory
(src/bigcompressor.go:268-274, 283-289). -/
def chunkAdd (c : DataChunk) (fi : WalkFile) : DataChunk :=
  { c with
    files := c.files ++ [fi]
    totalSize := c.totalSize + (if fi.isDir then 0 else fi.size) }

/-- One step of the planner loop body in `createChunkInfo`
(src/bigcompressor.go:266-290): the state is the list of finished chunks
plus the current chunk.  The threshold test compares against
`chunk.totalSize + fi.Size()` — the raw walker-reported size, also for
directories. -/
def createChunkInfoStep (maxSize : Int) :
    List DataChunk × DataChunk → WalkFile → List DataChunk × DataChunk :=
  fun (done, cur) fi =>
    if cur.totalSize + fi.size ≤ maxSize then
      (done, chunkAdd cur fi)
    else
      (done ++ [cur], chunkAdd ⟨cur.chunkNumber + 1, [], 0⟩ fi)

/-- Model of `createChunkInfo` (src/bigcompressor.go:255-294): fold the
walked entries through the planner step, starting from a single empty
chunk number 0; the current chunk is always the last element of the
returned list. -/
def createChunkInfo (maxSize : Int) (entries : List WalkFile) : List DataChunk :=
  let (done, cur) := entries.foldl (createChunkInfoStep maxSize) ([], ⟨0, [], 0⟩)
  done ++ [cur]

/-- The size the claim attributes to an entry in the threshold test:
"the entry's size (which is 0 for directories)". -/
def claimEntrySize (fi : WalkFile) : Int :=
  if fi.isDir then 0 else fi.size

/-- Planner step as the claim (C2) words it: the threshold test uses the
entry's size with directories counted as 0.  Stated for comparison with
`createChunkInfoStep`, which uses the raw `fi.Size()`. -/
def createChunkInfoStepPerClaim (maxSize : Int) :
    List DataChunk × DataChunk → WalkFile → List DataChunk × DataChunk :=
  fun (done, cur) fi =>
    if cur.totalSize + claimEntrySize fi ≤ maxSize then
      (done, chunkAdd cur fi)
    else
      (done ++ [cur], chunkAdd ⟨cur.chunkNumber + 1, [], 0⟩ fi)

/-- Planner as the claim (C2) words it, for comparison with
`createChunkInfo`. -/
def createChunkInfoPerClaim (maxSize : Int) (entries : List WalkFile) :
    List DataChunk :=
  let (done, cur) := entries.foldl (createChunkInfoStepPerClaim maxSize) ([], ⟨0, [], 0⟩)
  done ++ [cur]

/-- Names of the files of each planned chunk, for readable statements. -/
def chunkNames (cs : List DataChunk) : List (List String) :=
  cs.map (fun c => c.files.map (·.file))

/-- A directory entry as the walker reports it (ext4-style 4096-byte
directory size), used in the concrete planning scenarios. -/
def dirEntry (p : String) : WalkFile := ⟨p, 4096, true, 448, []⟩

/-- A regular-file entry of a given size (content irrelevant to planning). -/
def regEntry (p : String) (sz : Int) : WalkFile := ⟨p, sz, false, 420, []⟩

/-- The walked entry sequence of the claim C2 scenario tree
`a.txt (5000), b/b1.txt (5000), b/b2.txt (5000)`: `filepath.Walk`
visits the root itself first, then children in listing order. -/
def scenarioWalk : List WalkFile :=
  [dirEntry "/src",
   regEntry "/src/a.txt" 5000,
   dirEntry "/src/b",
   regEntry "/src/b/b1.txt" 5000,
   regEntry "/src/b/b2.txt" 5000]

/-- The running total a chunk is supposed to carry: the sum of its
files' sizes counting directories as 0. -/
def sumSizes (l : List WalkFile) : Int :=
  (l.map claimEntrySize).sum

theorem chunkAdd_total {c : DataChunk} (fi : WalkFile)
    (h : c.totalSize = sumSizes c.files) :
    (chunkAdd c fi).totalSize = sumSizes (chunkAdd c fi).files := by
  simp [chunkAdd, sumSizes, claimEntrySize, h]

/-- All files of a planner state, in order: finished chunks then the
current chunk. -/
def stateFiles (st : List DataChunk × DataChunk) : List WalkFile :=
  ((st.1 ++ [st.2]).map (·.files)).flatten

theorem planner_fold_spec (maxSize : Int) :
    ∀ (entries : List WalkFile) (done : List DataChunk) (cur : DataChunk),
    (∀ c ∈ done ++ [cur], c.totalSize = sumSizes c.files) →
    stateFiles (entries.foldl (createChunkInfoStep maxSize) (done, cur)) =
        stateFiles (done, cur) ++ entries
      ∧ ∀ c ∈ (entries.foldl (createChunkInfoStep maxSize) (done, cur)).1 ++
          [(entries.foldl (createChunkInfoStep maxSize) (done, cur)).2],
          c.totalSize = sumSizes c.files := by
  intro entries
  induction entries with
  | nil => intro done cur h; exact ⟨by simp, h⟩
  | cons fi rest ih =>
    intro done cur h
    have hcur : cur.totalSize = sumSizes cur.files := h cur (by simp)
    have hdone : ∀ c ∈ done, c.totalSize = sumSizes c.files :=
      fun c hc => h c (by simp [hc])
    simp only [List.foldl_cons]
    by_cases hle : cur.totalSize + fi.size ≤ maxSize
    · have hstep : createChunkInfoStep maxSize (done, cur) fi = (done, chunkAdd cur fi) := by
        simp [createChunkInfoStep, hle]
      rw [hstep]
      have hinv : ∀ c ∈ done ++ [chunkAdd cur fi], c.totalSize = sumSizes c.files := by
        intro c hc
        rcases List.mem_append.mp hc with h1 | h1
        · exact hdone c h1
        · simp only [List.mem_singleton] at h1
          subst h1; exact chunkAdd_total fi hcur
      obtain ⟨hj, ht⟩ := ih done (chunkAdd cur fi) hinv
      refine ⟨?_, ht⟩
      rw [hj]
      simp [stateFiles, chunkAdd, List.append_assoc]
    · have hstep : createChunkInfoStep maxSize (done, cur) fi =
          (done ++ [cur], chunkAdd ⟨cur.chunkNumber + 1, [], 0⟩ fi) := by
        simp [createChunkInfoStep, hle]
      rw [hstep]
      have hnew : (chunkAdd ⟨cur.chunkNumber + 1, [], 0⟩ fi).totalSize =
          sumSizes (chunkAdd ⟨cur.chunkNumber + 1, [], 0⟩ fi).files :=
        chunkAdd_total fi (by simp [sumSizes])
      have hinv : ∀ c ∈ (done ++ [cur]) ++ [chunkAdd ⟨cur.chunkNumber + 1, [], 0⟩ fi],
          c.totalSize = sumSizes c.files := by
        intro c hc
        rcases List.mem_append.mp hc with h1 | h1
        · exact h c h1
        · simp only [List.mem_singleton] at h1
          subst h1; exact hnew
      obtain ⟨hj, ht⟩ := ih (done ++ [cur]) (chunkAdd ⟨cur.chunkNumber + 1, [], 0⟩ fi) hinv
      refine ⟨?_, ht⟩
      rw [hj]
      simp [stateFiles, chunkAdd, List.append_assoc]

/-- C2 counterexample: the claim's threshold test ("the entry's size,
which is 0 for directories") disagrees with the code, which compares
against the raw walker-reported `fi.Size()`: after a 5000-byte file, a
4096-byte directory entry starts a new chunk under threshold 8000 in the
code, while the claim's rule keeps it in the current chunk.
Consequently the claimed plan for the scenario tree is also wrong: the
walk includes the root directory, so chunk 0 is not `{a.txt}` alone
under either rule. -/
theorem C2_planner_counterexample :
    chunkNames (createChunkInfo 8000 [regEntry "/src/a.txt" 5000, dirEntry "/src/b"]) =
        [["/src/a.txt"], ["/src/b"]]
    ∧ chunkNames (createChunkInfoPerClaim 8000
          [regEntry "/src/a.txt" 5000, dirEntry "/src/b"]) =
        [["/src/a.txt", "/src/b"]]
    ∧ chunkNames (createChunkInfo 8000 scenarioWalk) ≠
        [["/src/a.txt"], ["/src/b", "/src/b/b1.txt"], ["/src/b/b2.txt"]]
    ∧ chunkNames (createChunkInfoPerClaim 8000 scenarioWalk) ≠
        [["/src/a.txt"], ["/src/b", "/src/b/b1.txt"], ["/src/b/b2.txt"]] := by
  decide

/-- C2 (amended): the planner appends an entry to the current chunk
exactly when the running total plus the entry's raw walker-reported size
(nonzero for directories) is at most the threshold, and otherwise starts
a new chunk holding that entry; the running total of every chunk counts
only non-directory sizes; no entry is lost, duplicated or reordered; and
for the scenario tree (walk includes the root, 4096-byte directory
entries) the plan is chunk 0 = src root + a.txt, chunk 1 = b + b1.txt,
chunk 2 = b2.txt. -/
theorem C2_planner_amended (maxSize : Int) (entries : List WalkFile) :
    ((createChunkInfo maxSize entries).map (·.files)).flatten = entries
    ∧ (∀ c ∈ createChunkInfo maxSize entries, c.totalSize = sumSizes c.files)
    ∧ (∀ done cur fi, createChunkInfoStep maxSize (done, cur) fi =
        if cur.totalSize + fi.size ≤ maxSize then (done, chunkAdd cur fi)
        else (done ++ [cur], chunkAdd ⟨cur.chunkNumber + 1, [], 0⟩ fi))
    ∧ chunkNames (createChunkInfo 8000 scenarioWalk) =
        [["/src", "/src/a.txt"], ["/src/b", "/src/b/b1.txt"], ["/src/b/b2.txt"]] := by
  have base : ∀ c ∈ ([] : List DataChunk) ++ [(⟨0, [], 0⟩ : DataChunk)],
      c.totalSize = sumSizes c.files := by
    intro c hc
    simp only [List.nil_append, List.mem_singleton] at hc
    subst hc; simp [sumSizes]
  obtain ⟨hj, ht⟩ := planner_fold_spec maxSize entries [] ⟨0, [], 0⟩ base
  refine ⟨?_, ?_, ?_, ?_⟩
  · simpa [createChunkInfo, stateFiles] using hj
  · intro c hc
    apply ht
    simpa [createChunkInfo] using hc
  · intro done cur fi
    rfl
  · decide

/-- One callback invocation made by `filepath.Walk`: either a
successfully stat'ed entry (`ok`), or a per-entry stat failure, in which
case Go invokes the callback with a nil `os.FileInfo` and a non-nil
error (`statErr`). -/
inductive WalkEvent where
  | ok (fi : WalkFile)
  | statErr (path : String)
deriving DecidableEq, Repr

/-- Whether a walk event is a per-entry stat failure. -/
def WalkEvent.isStatErr : WalkEvent → Bool
  | .ok _ => false
  | .statErr _ => true

/-- The successfully stat'ed entries of a walk event sequence. -/
def walkEntries (evs : List WalkEvent) : List WalkFile :=
  evs.filterMap fun e => match e with
    | .ok fi => some fi
    | .statErr _ => none

/-- The planner loop over the raw callback invocations
(src/bigcompressor.go:265-292).  The callback ignores its error argument
and always returns nil; on a stat-error event the callback evaluates
`fi.Size()` on a nil `os.FileInfo`, which is a nil-interface dereference:
the process panics.  `none` models that panic — note the function has no
error-value outcome at all, matching the Go signature
`func (bc BigCompressor) createChunkInfo(src string) []*dataChunk`. -/
def createChunkInfoWalkGo (maxSize : Int) :
    List DataChunk × DataChunk → List WalkEvent → Option (List DataChunk × DataChunk)
  | st, [] => some st
  | st, .ok fi :: rest => createChunkInfoWalkGo maxSize (createChunkInfoStep maxSize st fi) rest
  | _, .statErr _ :: _ => none

/-- `createChunkInfo` as invoked on a walk that may report per-entry
errors: `some plan` when every entry stats cleanly, `none` (process
panic) as soon as one does not.  No walker error is ever returned. -/
def createChunkInfoWalk (maxSize : Int) (evs : List WalkEvent) :
    Option (List DataChunk) :=
  (createChunkInfoWalkGo maxSize ([], ⟨0, [], 0⟩) evs).map fun (done, cur) => done ++ [cur]

theorem createChunkInfoWalkGo_spec (maxSize : Int) :
    ∀ (evs : List WalkEvent) (st : List DataChunk × DataChunk),
    createChunkInfoWalkGo maxSize st evs =
      if evs.any WalkEvent.isStatErr then none
      else some ((walkEntries evs).foldl (createChunkInfoStep maxSize) st) := by
  intro evs
  induction evs with
  | nil => intro st; simp [createChunkInfoWalkGo, walkEntries]
  | cons e rest ih =>
    intro st
    cases e with
    | ok fi =>
      simp only [createChunkInfoWalkGo, ih, walkEntries, List.filterMap_cons,
        List.any_cons, WalkEvent.isStatErr, List.foldl_cons]
      rfl
    | statErr p =>
      simp [createChunkInfoWalkGo, WalkEvent.isStatErr]

/-- C4 counterexample: a per-entry stat error is not surfaced to the
caller of `Compress` — the plan phase has no error outcome at all; on the
concrete walk event sequence below it panics (`none`), so `Compress`
never receives (and can never return) the walker error. -/
theorem C4_walk_error_counterexample :
    createChunkInfoWalk 8000
        [WalkEvent.ok (regEntry "/src/a.txt" 5000),
         WalkEvent.statErr "/src/broken.txt"] = none
    ∧ ∀ plan, createChunkInfoWalk 8000
        [WalkEvent.ok (regEntry "/src/a.txt" 5000),
         WalkEvent.statErr "/src/broken.txt"] ≠ some plan := by
  refine ⟨by decide, ?_⟩
  intro plan
  simp [createChunkInfoWalk, createChunkInfoWalkGo]

/-- C4 (amended): the walk callback ignores its error argument and always
returns nil, so no walker error is ever propagated; when the walker
reports a per-entry stat failure the callback dereferences a nil
`os.FileInfo` and the process panics (`none`); otherwise the plan is the
one `createChunkInfo` computes on the successfully walked entries.  There
is no outcome in which an error value reaches `Compress`'s caller. -/
theorem C4_walk_error_amended (maxSize : Int) (evs : List WalkEvent) :
    createChunkInfoWalk maxSize evs =
      if evs.any WalkEvent.isStatErr then none
      else some (createChunkInfo maxSize (walkEntries evs)) := by
  rw [createChunkInfoWalk, createChunkInfoWalkGo_spec]
  by_cases h : evs.any WalkEvent.isStatErr <;> simp [h, createChunkInfo]

/-- An open file: its byte content and the current write offset.  Both
`writeChunk` (src/bigcompressor.go:201) and the combined-mode open in
`Compress` (src/bigcompressor.go:47) use `os.OpenFile` with
`O_CREATE|O_RDWR` — no `O_TRUNC` and no `O_APPEND` — so writing starts at
offset 0 and overwrites in place without truncating pre-existing bytes. -/
structure FileState where
  content : List Byte
  pos : Nat
deriving DecidableEq, Repr

/-- One `Write` call on an open file: overwrite `data.length` bytes at
the current offset (extending the file if needed) and advance the
offset.  Bytes beyond the written region keep their prior values. -/
def fwrite (st : FileState) (data : List Byte) : FileState :=
  ⟨st.content.take st.pos ++ data ++ st.content.drop (st.pos + data.length),
   st.pos + data.length⟩

/-- Model of `writeBufferToFile` (src/bigcompressor.go:187-198): write
the compressed buffer, then write the separator marker. -/
def writeBufferToFile (st : FileState) (buffer : List Byte) : FileState :=
  fwrite (fwrite st buffer) chunkseparator

/-- The destination file content after a combined-mode `Compress` run
that produced the given compressed chunk buffers, when the destination
file held `prior` beforehand (the empty list for a fresh file): the loop
in `Compress` (src/bigcompressor.go:60-77) calls `writeBufferToFile`
once per chunk on the single file opened at src/bigcompressor.go:47. -/
def compressCombinedWrites (prior : List Byte) (chunks : List (List Byte)) :
    List Byte :=
  (chunks.foldl writeBufferToFile ⟨prior, 0⟩).content

/-- The byte payload the claim C6 describes: chunk 0, marker, chunk 1,
marker, ..., chunk N, marker. -/
def combinedPayload (chunks : List (List Byte)) : List Byte :=
  chunks.flatMap (fun c => c ++ chunkseparator)

theorem fwrite_written (W data tail : List Byte) :
    fwrite ⟨W ++ tail, W.length⟩ data =
      ⟨(W ++ data) ++ tail.drop data.length, (W ++ data).length⟩ := by
  have ht : (W ++ tail).take W.length = W := List.take_left' rfl
  have hd : (W ++ tail).drop (W.length + data.length) = tail.drop data.length :=
    List.drop_append data.length
  simp only [fwrite, ht, hd]
  simp [List.append_assoc]

theorem drop_drop_len (l A B : List Byte) :
    (l.drop A.length).drop B.length = l.drop (A ++ B).length := by
  rw [List.drop_drop]
  simp

theorem combined_fold_spec (prior : List Byte) :
    ∀ (chunks : List (List Byte)) (W : List Byte),
    (chunks.foldl writeBufferToFile ⟨W ++ prior.drop W.length, W.length⟩).content =
      (W ++ combinedPayload chunks) ++ prior.drop (W ++ combinedPayload chunks).length := by
  intro chunks
  induction chunks with
  | nil =>
    intro W
    simp [combinedPayload]
  | cons c rest ih =>
    intro W
    have h1 : fwrite ⟨W ++ prior.drop W.length, W.length⟩ c =
        ⟨(W ++ c) ++ (prior.drop W.length).drop c.length, (W ++ c).length⟩ :=
      fwrite_written W c (prior.drop W.length)
    have hd1 : (prior.drop W.length).drop c.length = prior.drop (W ++ c).length :=
      drop_drop_len prior W c
    have h2 : fwrite ⟨(W ++ c) ++ prior.drop (W ++ c).length, (W ++ c).length⟩
          chunkseparator =
        ⟨((W ++ c) ++ chunkseparator) ++
            (prior.drop (W ++ c).length).drop chunkseparator.length,
         ((W ++ c) ++ chunkseparator).length⟩ :=
      fwrite_written (W ++ c) chunkseparator (prior.drop (W ++ c).length)
    have hd2 : (prior.drop (W ++ c).length).drop chunkseparator.length =
        prior.drop ((W ++ c) ++ chunkseparator).length :=
      drop_drop_len prior (W ++ c) chunkseparator
    simp only [List.foldl_cons, writeBufferToFile, h1, hd1, h2, hd2]
    have := ih ((W ++ c) ++ chunkseparator)
    rw [this]
    simp [combinedPayload, List.append_assoc, Nat.add_comm, Nat.add_left_comm,
      Nat.add_assoc]

/-- C6 counterexample: the combined destination file is opened without
`O_TRUNC`, so when the destination pre-exists with longer content, the
file does not end up holding exactly the chunk/marker concatenation —
the stale tail survives. -/
theorem C6_combined_format_counterexample :
    compressCombinedWrites (List.replicate 20 7) [[1, 2, 3]] ≠
        combinedPayload [[1, 2, 3]]
    ∧ compressCombinedWrites (List.replicate 20 7) [[1, 2, 3]] =
        combinedPayload [[1, 2, 3]] ++ List.replicate 10 7 := by
  decide

/-- C6 (amended): in combined mode the bytes `Compress` writes, starting
at offset 0 of the destination, are exactly
compressed_chunk_0 ++ MARKER ++ ... ++ compressed_chunk_N ++ MARKER; any
pre-existing destination bytes beyond that length are left in place (the
open uses no `O_TRUNC`), so the file content is exactly that
concatenation precisely when the destination did not pre-exist with
longer content (for a fresh or shorter file the claim's equality holds). -/
theorem C6_combined_format_amended (prior : List Byte) (chunks : List (List Byte)) :
    compressCombinedWrites prior chunks =
        combinedPayload chunks ++ prior.drop (combinedPayload chunks).length
    ∧ (compressCombinedWrites prior chunks = combinedPayload chunks ↔
        prior.length ≤ (combinedPayload chunks).length) := by
  have h := combined_fold_spec prior chunks []
  simp only [List.nil_append, List.drop_zero, List.length_nil] at h
  have hmain : compressCombinedWrites prior chunks =
      combinedPayload chunks ++ prior.drop (combinedPayload chunks).length := by
    rw [compressCombinedWrites]
    rw [show (⟨prior, 0⟩ : FileState) = ⟨[] ++ prior.drop ([] : List Byte).length, ([] : List Byte).length⟩ by simp]
    rw [combined_fold_spec prior chunks []]
    simp
  refine ⟨hmain, ?_⟩
  rw [hmain]
  constructor
  · intro he
    have : prior.drop (combinedPayload chunks).length = [] := by
      have := List.append_right_eq_self.mp he
      exact this
    exact List.drop_eq_nil_iff.mp this
  · intro hle
    have : prior.drop (combinedPayload chunks).length = [] :=
      List.drop_eq_nil_iff.mpr hle
    simp [this]

/-- Per-chunk-mode file name: `dst + "_" + strconv.Itoa(chunkNumber)`
(src/bigcompressor.go:66). -/
def chunkFileName (dst : String) (n : Nat) : String :=
  dst ++ "_" ++ toString n

/-- Model of `writeChunk` (src/bigcompressor.go:200-210): open the chunk
file with `O_CREATE|O_RDWR` (no `O_TRUNC`) and `io.Copy` the whole
compressed buffer into it from offset 0. -/
def writeChunk (prior buffer : List Byte) : List Byte :=
  (fwrite ⟨prior, 0⟩ buffer).content

/-- C8 counterexample: `writeChunk` does not truncate, so a pre-existing
longer file at the chunk name keeps its stale tail and the resulting
content is not the chunk's compressed bytes. -/
theorem C8_writeChunk_counterexample :
    writeChunk [9, 9, 9, 9, 9] [1, 2] ≠ [1, 2]
    ∧ writeChunk [9, 9, 9, 9, 9] [1, 2] = [1, 2, 9, 9, 9] := by
  decide

/-- C8 (amended): in per-chunk-file mode the writer opens (creating if
absent) the file named destination prefix + underscore + literal chunk
index and copies the entire compressed buffer into it starting at offset
0, overwriting but not truncating: the resulting content is the buffer
followed by any stale pre-existing tail, and equals exactly the chunk's
compressed bytes precisely when no longer prior content existed. -/
theorem C8_writeChunk_amended (prior buffer : List Byte) (dst : String) (n : Nat) :
    writeChunk prior buffer = buffer ++ prior.drop buffer.length
    ∧ (writeChunk prior buffer = buffer ↔ prior.length ≤ buffer.length)
    ∧ chunkFileName dst n = dst ++ "_" ++ toString n := by
  have hmain : writeChunk prior buffer = buffer ++ prior.drop buffer.length := by
    simp [writeChunk, fwrite]
  refine ⟨hmain, ?_, rfl⟩
  rw [hmain]
  constructor
  · intro he
    exact List.drop_eq_nil_iff.mp (List.append_right_eq_self.mp he)
  · intro hle
    simp [List.drop_eq_nil_iff.mpr hle]

/-- Remove the first occurrence of `pat` as a contiguous sub-list:
the effect of Go `strings.Replace(s, pat, "", 1)` for nonempty `pat`. -/
def removeFirstSub (pat : List Char) : List Char → List Char
  | [] => []
  | c :: rest =>
    if pat.isPrefixOf (c :: rest) then (c :: rest).drop pat.length
    else c :: removeFirstSub pat rest

/-- The archive name the encoder assigns:
`header.Name = strings.Replace(fi.file, src, "", 1)`
(src/bigcompressor.go:313) — strip the first occurrence of the source
root from the walked path. -/
def headerName (src file : String) : String :=
  ⟨removeFirstSub src.data file.data⟩

/-- One token of the uncompressed archive byte stream, at record
granularity: an entry header, an entry's content bytes (with its block
padding), or one 512-byte zero block (two consecutive ones form the tar
end-of-archive trailer). -/
inductive TarTok where
  | thdr (name : String) (mode : Nat) (size : Int) (isDir : Bool)
  | tdata (bytes : List Byte)
  | tzero
deriving DecidableEq, Repr

/-- The archive records written by the entry loop of
`compressChunkNoAlloc` (src/bigcompressor.go:307-330): for each entry of
the chunk, a header built from its metadata with the name relative to
the source root, followed — for non-directories only — by the file's
content bytes.  Header size is the file size for regular files and 0 for
directories (as `tar.FileInfoHeader` fills it). -/
def tarWriteEntries (src : String) (files : List WalkFile) : List TarTok :=
  files.flatMap fun fi =>
    TarTok.thdr (headerName src fi.file) fi.mode (if fi.isDir then 0 else fi.size) fi.isDir
      :: if fi.isDir then [] else [TarTok.tdata fi.content]

/-- Records appended by `tarEncode.Flush()` (src/bigcompressor.go:333):
per the archive/tar contract, `Flush` finishes the current entry's block
padding and writes nothing else — in particular no end-of-archive
trailer. -/
def tarFlushToks : List TarTok := []

/-- Records a `tar.Writer.Close()` would append: the end-of-archive
trailer of two 512-byte zero blocks (the code never calls `Close`; the
commented-out `compressChunk` did, src/bigcompressor.go:245). -/
def tarCloseToks : List TarTok := [TarTok.tzero, TarTok.tzero]

/-- The full uncompressed archive stream one chunk feeds through the
compressor in `compressChunkNoAlloc`: the entry records, then whatever
the tar finalize step (`Flush`) emits. -/
def compressChunkStream (src : String) (files : List WalkFile) : List TarTok :=
  tarWriteEntries src files ++ tarFlushToks

/-- The stream claim C5 describes: entries followed by a completed
archive finalize including the trailer records (i.e. a `Close`). -/
def compressChunkStreamPerClaim (src : String) (files : List WalkFile) : List TarTok :=
  tarWriteEntries src files ++ tarCloseToks

/-- An observable step of `compressChunkNoAlloc`: feeding one archive
record into the compressor, finalizing the archive layer, or finalizing
the compressor. -/
inductive EncEvent where
  | archWrite (t : TarTok)
  | archFlush
  | zstdClose
deriving DecidableEq, Repr

/-- The ordered steps `compressChunkNoAlloc` performs per chunk
(src/bigcompressor.go:299-341): write all entry records, then
`tarEncode.Flush()`, then `zstdEncode.Close()`. -/
def compressChunkNoAllocEvents (src : String) (files : List WalkFile) : List EncEvent :=
  (tarWriteEntries src files).map EncEvent.archWrite
    ++ [EncEvent.archFlush, EncEvent.zstdClose]

theorem tzero_not_mem_tarWriteEntries (src : String) (files : List WalkFile) :
    TarTok.tzero ∉ tarWriteEntries src files := by
  intro h
  rw [tarWriteEntries, List.mem_flatMap] at h
  obtain ⟨fi, _, hmem⟩ := h
  by_cases hd : fi.isDir <;> simp [hd] at hmem

/-- C5 counterexample: the archive layer is finalized with
`tarEncode.Flush()`, which does not write the tar end-of-archive trailer
records, so the uncompressed stream fed to the compressor for the
concrete one-file chunk below contains no trailer record — the claim's
"completing the uncompressed stream including its trailer records"
fails. -/
theorem C5_finalize_counterexample :
    TarTok.tzero ∉ compressChunkStream "/src" [⟨"/src/a.txt", 3, false, 420, [1, 2, 3]⟩]
    ∧ compressChunkStreamPerClaim "/src" [⟨"/src/a.txt", 3, false, 420, [1, 2, 3]⟩] ≠
        compressChunkStream "/src" [⟨"/src/a.txt", 3, false, 420, [1, 2, 3]⟩] := by
  decide

/-- C5 (amended): for every chunk, after all entries are written the
archive layer is finalized with `Flush` — which completes the current
entry's block padding but writes no end-of-archive trailer records — and
everything it emits is fed into the compressor before the compressor
itself is finalized; the two finalize steps happen in this
archive-then-compressor order for every chunk, but the uncompressed
stream never receives trailer records. -/
theorem C5_finalize_amended (src : String) (files : List WalkFile) :
    compressChunkNoAllocEvents src files =
        (compressChunkStream src files).map EncEvent.archWrite
          ++ [EncEvent.archFlush, EncEvent.zstdClose]
    ∧ TarTok.tzero ∉ compressChunkStream src files := by
  constructor
  · simp [compressChunkNoAllocEvents, compressChunkStream, tarFlushToks]
  · simpa [compressChunkStream, tarFlushToks] using
      tzero_not_mem_tarWriteEntries src files

/-- The scanner error `bufio` reports when a token cannot fit in the
buffer (`bufio.ErrTooLong`). -/
inductive ScanErr where
  | tooLong
deriving DecidableEq, Repr

/-- Model of the split function `scanFn` installed on the scanner
(src/bigcompressor.go:98-118): if the separator occurs at a strictly
positive index `k`, emit the bytes before it (trimmed) and advance past
the separator; otherwise, at EOF with a nonempty window emit the whole
window (trimmed); otherwise request more data (`0, nil, nil`).  The
result is (advance, emitted token). -/
def scanFn (data : List Byte) (atEOF : Bool) : Nat × Option (List Byte) :=
  match indexOfSub chunkseparator data with
  | some k =>
    if 0 < k then (k + chunkseparator.length, some (trimSpace (data.take k)))
    else if atEOF ∧ data ≠ [] then (data.length, some (trimSpace data)) else (0, none)
  | none =>
    if atEOF ∧ data ≠ [] then (data.length, some (trimSpace data)) else (0, none)

theorem scanFn_some_adv {p : List Byte} {eof : Bool} {adv : Nat} {t : List Byte}
    (h : scanFn p eof = (adv, some t)) : 0 < adv ∧ adv ≤ p.length := by
  unfold scanFn at h
  rcases hidx : indexOfSub chunkseparator p with _ | k
  all_goals simp only [hidx] at h
  · split_ifs at h with he
    · rw [Prod.mk.injEq] at h
      obtain ⟨h1, -⟩ := h
      subst h1
      exact ⟨List.length_pos.mpr he.2, le_refl _⟩
    · simp at h
  · split_ifs at h with hk he
    · rw [Prod.mk.injEq] at h
      obtain ⟨h1, -⟩ := h
      subst h1
      exact ⟨Nat.lt_of_lt_of_le hk (Nat.le_add_right k _), indexOfSub_le_length hidx⟩
    · rw [Prod.mk.injEq] at h
      obtain ⟨h1, -⟩ := h
      subst h1
      exact ⟨List.length_pos.mpr he.2, le_refl _⟩
    · simp at h

/-- The `for scanner.Scan()` driver loop of `Decompress`
(src/bigcompressor.go:120), as a pure function from the input bytes to
the emitted tokens and the scanner's final error state.  `pending` is
the buffered window, `rest` the unread input, `effMax` the effective
maximum window size.  Each iteration either emits a token (consuming at
least one buffered byte), reads one more input byte into the window
(failing with `ErrTooLong` if the window is already at capacity), or
terminates; `fuel` bounds the iteration count and is always sufficient
when at least `pending.length + 2 * rest.length + 1`. -/
def scanLoop (effMax : Nat) : Nat → List Byte → List Byte → List (List Byte) × Option ScanErr
  | 0, _, _ => ([], none)
  | fuel + 1, pending, [] =>
    match scanFn pending true with
    | (adv, some t) =>
      let r := scanLoop effMax fuel (pending.drop adv) []
      (t :: r.1, r.2)
    | (_, none) => ([], none)
  | fuel + 1, pending, b :: rs =>
    match scanFn pending false with
    | (adv, some t) =>
      let r := scanLoop effMax fuel (pending.drop adv) (b :: rs)
      (t :: r.1, r.2)
    | (_, none) =>
      if effMax ≤ pending.length then ([], some ScanErr.tooLong)
      else scanLoop effMax fuel (pending ++ [b]) rs

/-- The token stream and final scanner error for a whole input: the
scanner starts with an empty window and the full input unread. -/
def scanGo (effMax : Nat) (input : List Byte) : List (List Byte) × Option ScanErr :=
  scanLoop effMax (2 * input.length + 1) [] input

/-- The effective maximum token size of the scanner: `scanner.Buffer(buf,
bufio.MaxScanTokenSize)` with `buf` of the configured length
(src/bigcompressor.go:96-97) allows tokens up to the larger of the two,
and `bufio.MaxScanTokenSize` is 64 * 1024. -/
def effMaxBuf (cfgMax : Nat) : Nat := max cfgMax 65536

theorem head?_dropWhile_clean {l : List Byte} {b : Byte}
    (h : (l.dropWhile isSpaceByte).head? = some b) : isSpaceByte b = false := by
  have hk := List.head?_dropWhile_not isSpaceByte l
  rw [h] at hk
  exact hk

theorem getLast?_dropWhile_some {l : List Byte} {b : Byte}
    (h : (l.dropWhile isSpaceByte).getLast? = some b) : l.getLast? = some b := by
  obtain ⟨w, hw⟩ := List.dropWhile_suffix (l := l) isSpaceByte
  rw [← hw, List.getLast?_append, h]
  rfl

theorem trimSpace_head {l : List Byte} {b : Byte}
    (h : (trimSpace l).head? = some b) : isSpaceByte b = false := by
  unfold trimSpace at h
  rw [List.head?_reverse] at h
  have h2 := getLast?_dropWhile_some h
  rw [List.getLast?_reverse] at h2
  exact head?_dropWhile_clean h2

theorem trimSpace_last {l : List Byte} {b : Byte}
    (h : (trimSpace l).getLast? = some b) : isSpaceByte b = false := by
  unfold trimSpace at h
  rw [List.getLast?_reverse] at h
  exact head?_dropWhile_clean h

theorem dropWhile_eq_self_of_head {l : List Byte}
    (h : ∀ b, l.head? = some b → isSpaceByte b = false) :
    l.dropWhile isSpaceByte = l := by
  cases l with
  | nil => rfl
  | cons a t => simp [List.dropWhile_cons, h a rfl]

theorem trimSpace_eq_self {l : List Byte}
    (h1 : ∀ b, l.head? = some b → isSpaceByte b = false)
    (h2 : ∀ b, l.getLast? = some b → isSpaceByte b = false) :
    trimSpace l = l := by
  unfold trimSpace
  rw [dropWhile_eq_self_of_head h1]
  have hr : l.reverse.dropWhile isSpaceByte = l.reverse := by
    apply dropWhile_eq_self_of_head
    intro b hb
    rw [List.head?_reverse] at hb
    exact h2 b hb
  rw [hr, List.reverse_reverse]

theorem trimSpace_idem (l : List Byte) : trimSpace (trimSpace l) = trimSpace l :=
  trimSpace_eq_self (fun _ hb => trimSpace_head hb) (fun _ hb => trimSpace_last hb)

theorem scanFn_token_trimmed {p : List Byte} {eof : Bool} {adv : Nat} {t : List Byte}
    (h : scanFn p eof = (adv, some t)) : trimSpace t = t := by
  unfold scanFn at h
  rcases hidx : indexOfSub chunkseparator p with _ | k
  all_goals simp only [hidx] at h
  · split_ifs at h with he
    · rw [Prod.mk.injEq] at h
      obtain ⟨-, h2⟩ := h
      cases h2
      exact trimSpace_idem p
    · simp at h
  · split_ifs at h with hk he
    · rw [Prod.mk.injEq] at h
      obtain ⟨-, h2⟩ := h
      cases h2
      exact trimSpace_idem (p.take k)
    · rw [Prod.mk.injEq] at h
      obtain ⟨-, h2⟩ := h
      cases h2
      exact trimSpace_idem p
    · simp at h

theorem scanLoop_tokens_trimmed (effMax : Nat) :
    ∀ (fuel : Nat) (pending rest t : List Byte),
    t ∈ (scanLoop effMax fuel pending rest).1 → trimSpace t = t := by
  intro fuel
  induction fuel with
  | zero =>
    intro pending rest t ht
    simp [scanLoop] at ht
  | succ n ih =>
    intro pending rest t ht
    cases rest with
    | nil =>
      rcases hsf : scanFn pending true with ⟨adv, tok⟩
      cases tok with
      | some tk =>
        simp only [scanLoop, hsf, List.mem_cons] at ht
        rcases ht with rfl | ht
        · exact scanFn_token_trimmed hsf
        · exact ih (pending.drop adv) [] t ht
      | none =>
        simp [scanLoop, hsf] at ht
    | cons b rs =>
      rcases hsf : scanFn pending false with ⟨adv, tok⟩
      cases tok with
      | some tk =>
        simp only [scanLoop, hsf, List.mem_cons] at ht
        rcases ht with rfl | ht
        · exact scanFn_token_trimmed hsf
        · exact ih (pending.drop adv) (b :: rs) t ht
      | none =>
        simp only [scanLoop, hsf] at ht
        split_ifs at ht with hfull
        · simp at ht
        · exact ih (pending ++ [b]) rs t ht

/-- C9: every token the boundary scanner hands on during `Decompress`
has its leading and trailing ASCII whitespace bytes stripped (the split
function returns `bytes.TrimSpace` of the raw byte range), so a
compressed chunk whose bytes begin or end with whitespace is not passed
downstream byte-for-byte: each token is a `trimSpace` fixed point whose
edges carry no ASCII whitespace byte. -/
theorem C9_scanner_tokens_trimmed (cfgMax : Nat) (input t : List Byte)
    (h : t ∈ (scanGo (effMaxBuf cfgMax) input).1) :
    trimSpace t = t
    ∧ (∀ b, t.head? = some b → isSpaceByte b = false)
    ∧ (∀ b, t.getLast? = some b → isSpaceByte b = false) := by
  have htr : trimSpace t = t := scanLoop_tokens_trimmed _ _ _ _ _ h
  refine ⟨htr, ?_, ?_⟩
  · intro b hb
    rw [← htr] at hb
    exact trimSpace_head hb
  · intro b hb
    rw [← htr] at hb
    exact trimSpace_last hb

/-- C9 witness: on the concrete input below (a chunk preceded by an
ASCII space, then the separator, then a final chunk), the scanner emits
the whitespace-padded chunk with the space stripped. -/
theorem C9_scanner_tokens_trimmed_witness :
    ([200, 201] ∈ (scanGo (effMaxBuf 100) ([32, 200, 201] ++ chunkseparator ++ [202])).1
      ∧ (scanGo (effMaxBuf 100) ([32, 200, 201] ++ chunkseparator ++ [202])).1 =
          [[200, 201], [202]])
    ∧ (trimSpace [200, 201] = [200, 201]
      ∧ (∀ b, ([200, 201] : List Byte).head? = some b → isSpaceByte b = false)
      ∧ (∀ b, ([200, 201] : List Byte).getLast? = some b → isSpaceByte b = false)) :=
  ⟨by decide, C9_scanner_tokens_trimmed 100 ([32, 200, 201] ++ chunkseparator ++ [202])
    [200, 201] (by decide)⟩

/-- C10: the split function recognizes a chunk boundary only at a
strictly positive separator index.  When the separator sits at offset 0
of the buffered window, no token is emitted before EOF (the scanner is
told to read more data), and at EOF the whole window is returned as one
token with the separator bytes still embedded at its front — never an
empty token. -/
theorem C10_no_boundary_at_offset_zero (data : List Byte)
    (h : indexOfSub chunkseparator data = some 0) :
    scanFn data false = (0, none)
    ∧ scanFn data true = (data.length, some (trimSpace data))
    ∧ chunkseparator.isPrefixOf (trimSpace data) = true
    ∧ trimSpace data ≠ [] := by
  have hsepne : chunkseparator ≠ [] := by decide
  obtain ⟨tail, htail⟩ : ∃ tail, chunkseparator ++ tail = data := by
    cases data with
    | nil =>
      simp [indexOfSub, hsepne] at h
    | cons b rest =>
      rw [indexOfSub] at h
      split_ifs at h with hq
      · exact isPrefixOf_iff_append.mp hq
      · simp only [Option.map_eq_some'] at h
        obtain ⟨k', -, hk'⟩ := h
        omega
  subst htail
  have hne : chunkseparator ++ tail ≠ [] := by simp [hsepne]
  have key : ∃ s, trimSpace (chunkseparator ++ tail) = chunkseparator ++ s := by
    unfold trimSpace
    have h1 : (chunkseparator ++ tail).dropWhile isSpaceByte = chunkseparator ++ tail := by
      have hshape : chunkseparator ++ tail = 95 :: ([99, 72, 117, 78, 75, 95] ++ tail) := rfl
      rw [hshape, List.dropWhile_cons]
      norm_num [isSpaceByte]
    rw [h1, List.reverse_append, List.dropWhile_append]
    split_ifs with hemp
    · have h2 : chunkseparator.reverse.dropWhile isSpaceByte = chunkseparator.reverse := by
        decide
      rw [h2, List.reverse_reverse]
      exact ⟨[], by simp⟩
    · refine ⟨(tail.reverse.dropWhile isSpaceByte).reverse, ?_⟩
      rw [List.reverse_append, List.reverse_reverse]
  obtain ⟨s, hs⟩ := key
  refine ⟨by simp [scanFn, h], by simp [scanFn, h, hne], ?_, ?_⟩
  · rw [hs]
    exact isPrefixOf_iff_append.mpr ⟨s, rfl⟩
  · rw [hs]
    simp [hsepne]

/-- C10 witness: the concrete window separator-then-one-byte. -/
theorem C10_no_boundary_at_offset_zero_witness :
    indexOfSub chunkseparator (chunkseparator ++ [65]) = some 0
    ∧ (scanFn (chunkseparator ++ [65]) false = (0, none)
      ∧ scanFn (chunkseparator ++ [65]) true =
          ((chunkseparator ++ [65]).length, some (trimSpace (chunkseparator ++ [65])))
      ∧ chunkseparator.isPrefixOf (trimSpace (chunkseparator ++ [65])) = true
      ∧ trimSpace (chunkseparator ++ [65]) ≠ []) :=
  ⟨by decide, C10_no_boundary_at_offset_zero (chunkseparator ++ [65]) (by decide)⟩

/-! ### The compressed framing

The spec places the compression algorithm and the archive-header binary
layout out of scope ("treated as external collaborators ... consumed
through their ordinary encode/decode stream interfaces").  The framing
below models one self-contained compressed archive stream as an
injective byte encoding of the record stream: digits use bytes 128..191,
a terminator byte 255, record tags 192..196; file content bytes are
embedded verbatim.  Only the stream interface matters to the claims. -/

/-- Base-64 digits of `n`, little-endian; the first argument is
recursion fuel (`n` itself always suffices since the value shrinks by a
factor of 64 each step). -/
def natDigitsF : Nat → Nat → List Nat
  | 0, _ => []
  | fuel + 1, n => if n = 0 then [] else n % 64 :: natDigitsF fuel (n / 64)

/-- Encoding of one natural number: offset digits, then terminator. -/
def encNat (n : Nat) : List Byte :=
  (natDigitsF n n).map (· + 128) ++ [255]

/-- Decode digit bytes up to the 255 terminator. -/
def decNatAux : List Byte → Option (List Nat × List Byte)
  | [] => none
  | b :: r =>
    if b = 255 then some ([], r)
    else if 128 ≤ b ∧ b < 192 then
      match decNatAux r with
      | some (ds, r') => some ((b - 128) :: ds, r')
      | none => none
    else none

/-- Value of a little-endian base-64 digit list. -/
def undigits : List Nat → Nat
  | [] => 0
  | d :: ds => d + 64 * undigits ds

/-- Decode one natural number, returning it and the remaining bytes. -/
def decNat (l : List Byte) : Option (Nat × List Byte) :=
  (decNatAux l).map fun (ds, r) => (undigits ds, r)

/-- Encoding of a string: length, then its character codes verbatim. -/
def encStr (s : String) : List Byte :=
  encNat s.length ++ s.data.map Char.toNat

/-- Decode one string. -/
def decStr (l : List Byte) : Option (String × List Byte) :=
  match decNat l with
  | some (n, r) =>
    if n ≤ r.length then some (⟨(r.take n).map Char.ofNat⟩, r.drop n) else none
  | none => none

/-- Encoding of one archive record. -/
def encTok : TarTok → List Byte
  | .thdr name mode size isDir =>
    192 :: (encStr name ++ encNat mode ++ encNat size.toNat
      ++ [if isDir then 193 else 194])
  | .tdata bs => 195 :: (encNat bs.length ++ bs)
  | .tzero => [196]

/-- One chunk's compressed bytes: the encoded record stream. -/
def encodeToks (ts : List TarTok) : List Byte :=
  ts.flatMap encTok

/-- Decode a compressed chunk back into its record stream; `none` models
a corrupt stream (surfaced by the decoder as a read error).  The first
argument is recursion fuel; each record consumes at least one byte, so
the byte count suffices. -/
def decToksF : Nat → List Byte → Option (List TarTok)
  | _, [] => some []
  | 0, _ :: _ => none
  | fuel + 1, b :: r =>
    if b = 192 then
      match decStr r with
      | some (name, r1) =>
        match decNat r1 with
        | some (mode, r2) =>
          match decNat r2 with
          | some (size, r3) =>
            match r3 with
            | 193 :: r4 => (decToksF fuel r4).map (TarTok.thdr name mode (size : Int) true :: ·)
            | 194 :: r4 => (decToksF fuel r4).map (TarTok.thdr name mode (size : Int) false :: ·)
            | _ => none
          | none => none
        | none => none
      | none => none
    else if b = 195 then
      match decNat r with
      | some (n, r1) =>
        if n ≤ r1.length then
          (decToksF fuel (r1.drop n)).map (TarTok.tdata (r1.take n) :: ·)
        else none
      | none => none
    else if b = 196 then (decToksF fuel r).map (TarTok.tzero :: ·)
    else none

/-- Decode a whole compressed chunk. -/
def decodeToks (l : List Byte) : Option (List TarTok) :=
  decToksF l.length l

/-! ### The replay of one chunk (`decompressChunk`) -/

/-- Model of `filepath.Join(dst, name)` for the path shapes arising here
(src/bigcompressor.go:158): header names produced by the encoder carry a
leading slash (the source root is stripped from an absolute child path),
which `Join` collapses. -/
def joinPath (dst name : String) : String :=
  match name.data with
  | '/' :: _ => dst ++ name
  | _ => dst ++ "/" ++ name

/-- Model of `filepath.Dir` (src/bigcompressor.go:164) on already-clean
paths: everything before the final slash; `.` when there is no slash,
`/` when the final slash is leading. -/
def parentDir (s : String) : String :=
  match (s.data.reverse.dropWhile (fun c => c ≠ '/')).reverse with
  | [] => "."
  | ['/'] => "/"
  | l => ⟨l.dropLast⟩

/-- The directories `os.MkdirAll p` brings into existence: `p` and its
ancestors. -/
def ancestorsF : Nat → String → List String
  | 0, _ => []
  | fuel + 1, p =>
    p :: (if parentDir p = p then [] else ancestorsF fuel (parentDir p))

/-- `p` together with all its ancestor directories. -/
def ancestorDirs (p : String) : List String :=
  ancestorsF (p.data.length + 1) p

/-- An observable filesystem action of the replay loop in
`decompressChunk` (src/bigcompressor.go:150-183). -/
inductive FsEvent where
  | mkdirAll (path : String)
  | openFile (path : String) (mode : Nat)
  | writeBytes (path : String) (bytes : List Byte)
  | closeFile (path : String)
deriving DecidableEq, Repr

/-- The actions performed for one regular-file header
(src/bigcompressor.go:163-181): stat the parent directory and `MkdirAll`
it when missing, open/create the destination with the header's
permission bits, copy the entry's bytes, close immediately.  The state
is the set of directories known to exist. -/
def fileEvents (dst name : String) (mode : Nat) (bs : List Byte)
    (dirs : List String) : List FsEvent × List String :=
  let target := joinPath dst name
  let dirName := parentDir target
  if dirName ∈ dirs then
    ([FsEvent.openFile target mode, FsEvent.writeBytes target bs,
      FsEvent.closeFile target], dirs)
  else
    ([FsEvent.mkdirAll dirName, FsEvent.openFile target mode,
      FsEvent.writeBytes target bs, FsEvent.closeFile target],
     ancestorDirs dirName ++ dirs)

/-- The replay loop of `decompressChunk` over the decoded record stream:
`tar.Reader.Next` yields each header in turn and stops at the
end-of-archive trailer (or at end of stream); the switch acts only on
regular-file headers (`case tar.TypeReg`), so directory entries create
nothing; each regular file's bytes (exactly the entry's data, as the tar
reader bounds reads by the header size) are copied and the file closed
immediately. -/
def replayToks (dst : String) : List String → List TarTok → List FsEvent × List String
  | dirs, [] => ([], dirs)
  | dirs, TarTok.tzero :: _ => ([], dirs)
  | dirs, TarTok.tdata _ :: rest => replayToks dst dirs rest
  | dirs, TarTok.thdr _ _ _ true :: rest => replayToks dst dirs rest
  | dirs, TarTok.thdr name mode _ false :: TarTok.tdata bs :: rest =>
    let fe := fileEvents dst name mode bs dirs
    let r := replayToks dst fe.2 rest
    (fe.1 ++ r.1, r.2)
  | dirs, TarTok.thdr name mode _ false :: rest =>
    let fe := fileEvents dst name mode [] dirs
    let r := replayToks dst fe.2 rest
    (fe.1 ++ r.1, r.2)

/-- Well-formedness of a decoded record stream: every regular-file
header is immediately followed by its data record of exactly the
header's declared size (which is how the tar reader delivers entries). -/
def sizedOk : List TarTok → Bool
  | [] => true
  | TarTok.tzero :: rest => sizedOk rest
  | TarTok.thdr _ _ _ true :: rest => sizedOk rest
  | TarTok.thdr _ _ sz false :: TarTok.tdata bs :: rest =>
    (sz == (bs.length : Int)) && sizedOk rest
  | TarTok.thdr _ _ _ false :: _ => false
  | TarTok.tdata _ :: _ => false

/-- The shape claim C7 describes for the replay's action trace: create
events come only as an optional parent-directory `mkdirAll` immediately
before an open/write/close triple on one file. -/
def goodShape : List FsEvent → Bool
  | [] => true
  | FsEvent.mkdirAll _ :: rest => goodShape rest
  | FsEvent.openFile t _ :: FsEvent.writeBytes t2 _ :: FsEvent.closeFile t3 :: rest =>
    t == t2 && t2 == t3 && goodShape rest
  | _ => false

/-- C7: during replay of any well-formed chunk, directory-typed entries
cause no filesystem action; every directory created is the parent
directory of some regular-file destination path; every write copies
exactly the header's declared number of bytes into the joined
destination path; and the trace has the shape optional-mkdir, open,
write, close per regular file — the file is closed immediately after its
bytes are copied. -/
theorem C7_replay_effects (dst : String) (dirs : List String) (toks : List TarTok)
    (hwf : sizedOk toks = true) :
    goodShape (replayToks dst dirs toks).1 = true
    ∧ (∀ p, FsEvent.mkdirAll p ∈ (replayToks dst dirs toks).1 →
        ∃ n m sz, TarTok.thdr n m sz false ∈ toks ∧ p = parentDir (joinPath dst n))
    ∧ (∀ t c, FsEvent.writeBytes t c ∈ (replayToks dst dirs toks).1 →
        ∃ n m, TarTok.thdr n m (c.length : Int) false ∈ toks ∧ t = joinPath dst n)
    ∧ ((∀ n m sz d, TarTok.thdr n m sz d ∈ toks → d = true) →
        (replayToks dst dirs toks).1 = []) := by
  induction toks using sizedOk.induct generalizing dirs with
  | case1 =>
    refine ⟨by simp [replayToks, goodShape], ?_, ?_, ?_⟩ <;>
      simp [replayToks]
  | case2 rest ih =>
    refine ⟨by simp [replayToks, goodShape], ?_, ?_, ?_⟩ <;>
      simp [replayToks]
  | case3 n m sz rest ih =>
    simp only [sizedOk] at hwf
    obtain ⟨h1, h2, h3, h4⟩ := ih dirs hwf
    have hr : replayToks dst dirs (TarTok.thdr n m sz true :: rest) =
        replayToks dst dirs rest := by
      simp [replayToks]
    refine ⟨by rw [hr]; exact h1, ?_, ?_, ?_⟩
    · intro p hp
      rw [hr] at hp
      obtain ⟨n', m', sz', hmem, hp'⟩ := h2 p hp
      exact ⟨n', m', sz', by simp [hmem], hp'⟩
    · intro t c hc
      rw [hr] at hc
      obtain ⟨n', m', hmem, ht⟩ := h3 t c hc
      exact ⟨n', m', by simp [hmem], ht⟩
    · intro hall
      rw [hr]
      exact h4 fun n' m' sz' d hmem => hall n' m' sz' d (by simp [hmem])
  | case4 n m sz bs rest ih =>
    simp only [sizedOk, Bool.and_eq_true, beq_iff_eq] at hwf
    obtain ⟨hsz, hrest⟩ := hwf
    have hr : replayToks dst dirs (TarTok.thdr n m sz false :: TarTok.tdata bs :: rest) =
        ((fileEvents dst n m bs dirs).1 ++
            (replayToks dst (fileEvents dst n m bs dirs).2 rest).1,
          (replayToks dst (fileEvents dst n m bs dirs).2 rest).2) := by
      simp [replayToks]
    obtain ⟨h1, h2, h3, h4⟩ := ih (fileEvents dst n m bs dirs).2 hrest
    have hfe : (fileEvents dst n m bs dirs).1 =
          [FsEvent.openFile (joinPath dst n) m,
           FsEvent.writeBytes (joinPath dst n) bs,
           FsEvent.closeFile (joinPath dst n)]
        ∨ (fileEvents dst n m bs dirs).1 =
          [FsEvent.mkdirAll (parentDir (joinPath dst n)),
           FsEvent.openFile (joinPath dst n) m,
           FsEvent.writeBytes (joinPath dst n) bs,
           FsEvent.closeFile (joinPath dst n)] := by
      rw [fileEvents]
      split_ifs with hmem
      · exact Or.inl rfl
      · exact Or.inr rfl
    refine ⟨?_, ?_, ?_, ?_⟩
    · rw [hr]
      rcases hfe with hfe | hfe <;> rw [hfe] <;>
        simp [goodShape, h1]
    · intro p hp
      rw [hr] at hp
      rcases List.mem_append.mp hp with hp | hp
      · rcases hfe with hfe | hfe <;> rw [hfe] at hp <;> simp at hp
        exact ⟨n, m, sz, by simp, hp⟩
      · obtain ⟨n', m', sz', hmem, hp'⟩ := h2 p hp
        exact ⟨n', m', sz', by simp [hmem], hp'⟩
    · intro t c hc
      rw [hr] at hc
      rcases List.mem_append.mp hc with hc | hc
      · have : t = joinPath dst n ∧ c = bs := by
          rcases hfe with hfe | hfe <;> rw [hfe] at hc <;> simpa using hc
        obtain ⟨rfl, rfl⟩ := this
        exact ⟨n, m, by simp [hsz.symm], rfl⟩
      · obtain ⟨n', m', hmem, ht⟩ := h3 t c hc
        exact ⟨n', m', by simp [hmem], ht⟩
    · intro hall
      exact absurd (hall n m sz false (by simp)) (by simp)
  | case5 n m sz rest hne =>
    have hfalse : sizedOk (TarTok.thdr n m sz false :: rest) = false := by
      cases rest with
      | nil => rfl
      | cons hd tl =>
        cases hd with
        | thdr a b c d => rfl
        | tdata bs => exact (hne bs tl rfl).elim
        | tzero => rfl
    rw [hfalse] at hwf
    simp at hwf
  | case6 bs rest =>
    simp [sizedOk] at hwf

/-- C7 witness: a concrete chunk holding one regular file and one
directory entry, replayed into an empty destination. -/
theorem C7_replay_effects_witness :
    sizedOk [TarTok.thdr "/a.txt" 420 3 false, TarTok.tdata [1, 2, 3],
        TarTok.thdr "/b" 493 0 true] = true
    ∧ (goodShape (replayToks "/dst" []
          [TarTok.thdr "/a.txt" 420 3 false, TarTok.tdata [1, 2, 3],
           TarTok.thdr "/b" 493 0 true]).1 = true
      ∧ (∀ p, FsEvent.mkdirAll p ∈ (replayToks "/dst" []
            [TarTok.thdr "/a.txt" 420 3 false, TarTok.tdata [1, 2, 3],
             TarTok.thdr "/b" 493 0 true]).1 →
          ∃ n m sz, TarTok.thdr n m sz false ∈
              [TarTok.thdr "/a.txt" 420 3 false, TarTok.tdata [1, 2, 3],
               TarTok.thdr "/b" 493 0 true]
            ∧ p = parentDir (joinPath "/dst" n))
      ∧ (∀ t c, FsEvent.writeBytes t c ∈ (replayToks "/dst" []
            [TarTok.thdr "/a.txt" 420 3 false, TarTok.tdata [1, 2, 3],
             TarTok.thdr "/b" 493 0 true]).1 →
          ∃ n m, TarTok.thdr n m (c.length : Int) false ∈
              [TarTok.thdr "/a.txt" 420 3 false, TarTok.tdata [1, 2, 3],
               TarTok.thdr "/b" 493 0 true]
            ∧ t = joinPath "/dst" n)
      ∧ ((∀ n m sz d, TarTok.thdr n m sz d ∈
            [TarTok.thdr "/a.txt" 420 3 false, TarTok.tdata [1, 2, 3],
             TarTok.thdr "/b" 493 0 true] → d = true) →
          (replayToks "/dst" []
            [TarTok.thdr "/a.txt" 420 3 false, TarTok.tdata [1, 2, 3],
             TarTok.thdr "/b" 493 0 true]).1 = [])) :=
  ⟨by decide, C7_replay_effects "/dst" []
    [TarTok.thdr "/a.txt" 420 3 false, TarTok.tdata [1, 2, 3],
     TarTok.thdr "/b" 493 0 true] (by decide)⟩

/-! ### Decompression across chunks -/

/-- A decoder-side error surfaced during chunk replay (corrupt
compressed stream). -/
inductive DecErr where
  | corrupt
deriving DecidableEq, Repr

/-- The state of the package-global decoder pair across chunks
(src/bigcompressor.go:138-147): `tarEOF` is the error value cached by
`tar.Reader.Next` (`tr.err`).  After any chunk replays to its end,
`Next` has returned `io.EOF` and caches it; the per-chunk reset
(`zstdDecode.Reset(bc.buffer)`) resets only the zstd reader —
`tarDecode` is created once (src/bigcompressor.go:144) and never reset,
so the cached `io.EOF` persists.  `dirs` are the directories known to
exist; `events` the accumulated filesystem actions. -/
structure DecSession where
  tarEOF : Bool
  dirs : List String
  events : List FsEvent
deriving DecidableEq, Repr

/-- Model of `decompressChunk` (src/bigcompressor.go:141-185) acting on
one token's bytes: when the tar reader's cached error is already
`io.EOF`, the first `Next` call returns it, the loop breaks, and the
function returns nil having replayed nothing; otherwise the chunk is
decoded (a corrupt stream surfaces as an error from `Next`) and its
entries replayed, after which `Next` has hit end-of-stream and the
reader caches `io.EOF`. -/
def decompressChunk (dst : String) (s : DecSession) (buf : List Byte) :
    DecSession × Option DecErr :=
  if s.tarEOF then (s, none)
  else
    match decodeToks buf with
    | none => (s, some DecErr.corrupt)
    | some toks =>
      let r := replayToks dst s.dirs toks
      ({ tarEOF := true, dirs := r.2, events := s.events ++ r.1 }, none)

/-- The token loop of `Decompress` (src/bigcompressor.go:120-134): each
scanned token longer than 10 bytes is written into the shared buffer and
handed to `decompressChunk`; a chunk error aborts; shorter tokens are
skipped. -/
def decompressLoop (dst : String) : DecSession → List (List Byte) → DecSession × Option DecErr
  | s, [] => (s, none)
  | s, t :: ts =>
    if t.length > 10 then
      match decompressChunk dst s t with
      | (s', none) => decompressLoop dst s' ts
      | (s', some e) => (s', some e)
    else decompressLoop dst s ts

/-- Model of `Decompress` (src/bigcompressor.go:81-136) on the first
call in a process (the global decoder pair starts fresh): scan the
input into tokens, replay each sufficiently long token, and return.
`scanner.Err()` is never consulted, so the scanner's final error state —
in particular `ErrTooLong` from a boundary-scan overflow — is discarded
and the loop's early end is indistinguishable from a completed scan. -/
def Decompress (cfgMax : Nat) (dst : String) (input : List Byte) :
    DecSession × Option DecErr :=
  decompressLoop dst ⟨false, [], []⟩ (scanGo (effMaxBuf cfgMax) input).1

/-- The files written during a decompression session: destination path
and byte content of every write event. -/
def writtenFiles (s : DecSession) : List (String × List Byte) :=
  s.events.filterMap fun e => match e with
    | FsEvent.writeBytes t c => some (t, c)
    | _ => none

/-- Model of combined-mode `Compress` (src/bigcompressor.go:39-79) from
the walked entries: plan the chunks, encode and compress each chunk's
archive stream, and write each compressed buffer followed by the
separator marker into the destination (which held `prior`, empty for a
fresh file). -/
def Compress (src : String) (walk : List WalkFile) (maxChunk : Int)
    (prior : List Byte) : List Byte :=
  compressCombinedWrites prior
    ((createChunkInfo maxChunk walk).map fun ch =>
      encodeToks (compressChunkStream src ch.files))

theorem scanLoop_overflow (effMax : Nat) (c : Byte)
    (hcm : ∃ x ∈ chunkseparator, x ≠ c) :
    ∀ (fuel : Nat) (rest pending : List Byte),
    (∀ b ∈ pending, b = c) → (∀ b ∈ rest, b = c) →
    pending.length ≤ effMax → effMax < pending.length + rest.length →
    rest.length < fuel →
    scanLoop effMax fuel pending rest = ([], some ScanErr.tooLong) := by
  intro fuel
  induction fuel with
  | zero =>
    intro rest pending _ _ _ _ hflt
    omega
  | succ n ih =>
    intro rest pending hpend hrest hle hgt hflt
    cases rest with
    | nil => simp at hgt; omega
    | cons b rs =>
      have hidx : indexOfSub chunkseparator pending = none :=
        indexOfSub_none_of_all hcm hpend
      have hsf : scanFn pending false = (0, none) := by
        simp [scanFn, hidx]
      rw [scanLoop, hsf]
      by_cases hfull : effMax ≤ pending.length
      · simp [hfull]
      · have hlt : pending.length < effMax := by omega
        simp only [hfull, if_false]
        apply ih rs (pending ++ [b])
        · intro x hx
          rcases List.mem_append.mp hx with hx | hx
          · exact hpend x hx
          · simp only [List.mem_singleton] at hx
            subst hx
            exact hrest _ (by simp)
        · intro x hx
          exact hrest x (by simp [hx])
        · simp; omega
        · simp only [List.length_append, List.length_singleton]
          simp only [List.length_cons] at hgt
          omega
        · simp only [List.length_cons] at hflt
          omega

/-- C3 counterexample: a combined input consisting of one 70000-byte
marker-free run exceeds the effective scan-buffer bound
(max(configured, 64 KiB)); the scanner stops with `ErrTooLong`, but
`Decompress` never checks `scanner.Err()` — it returns success having
replayed nothing, instead of reporting a recoverable error. -/
theorem C3_overflow_counterexample :
    scanGo (effMaxBuf 1000) (List.replicate 70000 200) = ([], some ScanErr.tooLong)
    ∧ Decompress 1000 "/dst" (List.replicate 70000 200) = (⟨false, [], []⟩, none) := by
  have hscan : scanGo (effMaxBuf 1000) (List.replicate 70000 200) =
      ([], some ScanErr.tooLong) := by
    rw [scanGo]
    apply scanLoop_overflow (effMaxBuf 1000) 200 (by decide)
    · intro b hb
      simp at hb
    · intro b hb
      exact (List.eq_of_mem_replicate hb)
    · simp [effMaxBuf]
    · rw [List.length_nil, List.length_replicate]
      decide
    · rw [List.length_replicate]
      omega
  refine ⟨hscan, ?_⟩
  rw [Decompress, hscan]
  rfl

/-- C3 (amended): when a chunk's size between markers exceeds the
effective scan-buffer bound max(configured maximum, 64 KiB), `bufio`
stops the scan with `ErrTooLong`; but `Decompress` never consults
`scanner.Err()`, so the loop simply ends and `Decompress` returns nil:
the overflow is silently swallowed rather than reported (here stated for
any marker-free single-run input longer than the bound: the scanner
error is `tooLong`, yet the result carries no error and nothing was
replayed). -/
theorem C3_overflow_amended (cfgMax n : Nat) (dst : String) (c : Byte)
    (hcm : ∃ x ∈ chunkseparator, x ≠ c) (hn : effMaxBuf cfgMax < n) :
    (scanGo (effMaxBuf cfgMax) (List.replicate n c)).2 = some ScanErr.tooLong
    ∧ Decompress cfgMax dst (List.replicate n c) = (⟨false, [], []⟩, none) := by
  have hscan : scanGo (effMaxBuf cfgMax) (List.replicate n c) =
      ([], some ScanErr.tooLong) := by
    rw [scanGo]
    apply scanLoop_overflow (effMaxBuf cfgMax) c hcm
    · intro b hb
      simp at hb
    · intro b hb
      exact (List.eq_of_mem_replicate hb)
    · simp
    · simpa using hn
    · simp; omega
  refine ⟨by rw [hscan], ?_⟩
  rw [Decompress, hscan]
  rfl

/-- C3 amended witness: the bound instantiated at configuration 1000 and
a 70000-byte run of byte 200. -/
theorem C3_overflow_amended_witness :
    ((∃ x ∈ chunkseparator, x ≠ 200) ∧ effMaxBuf 1000 < 70000)
    ∧ ((scanGo (effMaxBuf 1000) (List.replicate 70000 200)).2 = some ScanErr.tooLong
      ∧ Decompress 1000 "/dst" (List.replicate 70000 200) = (⟨false, [], []⟩, none)) :=
  ⟨⟨⟨95, by decide, by decide⟩, by decide⟩,
   C3_overflow_amended 1000 70000 "/dst" 200 ⟨95, by decide, by decide⟩ (by decide)⟩

/-- A two-chunk source tree: with threshold 6, the root directory and
`a.txt` form chunk 0 and `b.txt` forms chunk 1. -/
def rtWalk : List WalkFile :=
  [⟨"/src", 4, true, 448, []⟩,
   ⟨"/src/a.txt", 6, false, 420, [130, 131, 132, 133, 134, 135]⟩,
   ⟨"/src/b.txt", 6, false, 420, [140, 141, 142, 143, 144, 145]⟩]

/-- C1: the round-trip property fails on any tree that compresses into
more than one chunk.  For the concrete two-chunk tree `rtWalk`
(threshold 6, combined mode, fresh destination), `Decompress` returns
success but recreates only chunk 0's regular file `a.txt`: the
package-global tar reader is created once and never reset (only the zstd
reader is reset per chunk), so after chunk 0 replays, `tar.Reader.Next`
keeps returning its cached `io.EOF` and every later chunk — here the one
holding `b.txt` — replays as an empty archive. -/
theorem C1_roundtrip_failure :
    (Decompress 1000 "/dst" (Compress "/src" rtWalk 6 [])).2 = none
    ∧ writtenFiles (Decompress 1000 "/dst" (Compress "/src" rtWalk 6 [])).1 =
        [("/dst/a.txt", [130, 131, 132, 133, 134, 135])]
    ∧ "/dst/b.txt" ∉
        (writtenFiles (Decompress 1000 "/dst" (Compress "/src" rtWalk 6 [])).1).map
          Prod.fst
    ∧ chunkNames (createChunkInfo 6 rtWalk) =
        [["/src", "/src/a.txt"], ["/src/b.txt"]] := by
  decide

end BigCompressor
